import Mathlib

/-!
Verification of the `rolling-stats` library (`src/lib.rs`).

The Rust struct `RollingStats` keeps a bounded FIFO window of `i32` samples
(a `heapless::Deque<i32, 10>`), a carry buffer of leftover stream bytes
(a `heapless::Vec<u8, 4>`), and two running `i64` scalars (sum and
sum-of-squares of the window).  Bytes are ingested through `write`, which
reassembles 4-byte frames across call boundaries and decodes them per a
configurable endianness.

Modelling conventions:
* `i64` arithmetic wraps modulo `2 ^ 64` (release-mode Rust semantics); the
  helper `wrap64` maps an integer to its two's-complement 64-bit value.
* bytes are `Nat` (values are < 256 in every real input), `i32` samples are
  `Int`.
* the stored-capacity-10 `Deque` push that can fail is modelled by
  `dequePushBack`, returning `none` exactly when the deque is full, and the
  Rust `let _ =` discard is modelled by `Option.getD`.
* a Rust panic (failed `assert!` in `new`, out-of-bounds slice index in
  `read_i32_from_bytes`) is modelled by `Option.none`.
* `f32` arithmetic in `mean`/`std_dev` is modelled as exact arithmetic over
  `ℚ` (with `Real.sqrt` for the final square root), and the Gaussian draw of
  `sample` is an oracle parameter.
-/

/-- Byte order for interpreting byte streams (`enum Endianness`). -/
inductive Endianness where
  | Little
  | Big
deriving DecidableEq, Repr

/-- The rolling statistics state (`struct RollingStats`).  `values` is the
window, oldest element first; `remainder` is the carry buffer of leftover
bytes; `sum` and `sum_of_squares` are the running `i64` scalars. -/
structure RollingStats where
  window_size : Nat
  endianness : Endianness
  values : List Int
  remainder : List Nat
  sum : Int
  sum_of_squares : Int
deriving DecidableEq, Repr

/-- Two's-complement wrapping of an integer into the `i64` range
`[-2 ^ 63, 2 ^ 63)`. -/
def wrap64 (x : Int) : Int := (x + 2 ^ 63) % 2 ^ 64 - 2 ^ 63

/-- Reinterpret an unsigned 32-bit value (reduced mod `2 ^ 32`) as the signed
`i32` it denotes. -/
def toI32 (n : Nat) : Int :=
  if n % 2 ^ 32 < 2 ^ 31 then (n % 2 ^ 32 : Int) else (n % 2 ^ 32 : Int) - 2 ^ 32

/-- Big-endian `i32` read of four bytes (`BigEndian::read_i32`): the first
byte is most significant. -/
def be_read_i32 (b0 b1 b2 b3 : Nat) : Int :=
  toI32 (b0 * 2 ^ 24 + b1 * 2 ^ 16 + b2 * 2 ^ 8 + b3)

/-- Little-endian `i32` read of four bytes (`LittleEndian::read_i32`): the
first byte is least significant. -/
def le_read_i32 (b0 b1 b2 b3 : Nat) : Int :=
  toI32 (b3 * 2 ^ 24 + b2 * 2 ^ 16 + b1 * 2 ^ 8 + b0)

/-- Decode one 4-byte frame per the given endianness (the `match` body of
`read_i32_from_bytes`, specialised to the four bytes actually read). -/
def decode4 (e : Endianness) (b0 b1 b2 b3 : Nat) : Int :=
  match e with
  | .Little => le_read_i32 b0 b1 b2 b3
  | .Big => be_read_i32 b0 b1 b2 b3

/-- Constructor `RollingStats::new`.  The Rust `assert!` demands
`window_size > 0 && window_size <= 10`; a failed assertion (panic) is
modelled by `none`. -/
def RollingStats.new (window_size : Nat) (endianness : Endianness) :
    Option RollingStats :=
  if window_size > 0 ∧ window_size ≤ 10 then
    some { window_size := window_size, endianness := endianness,
           values := [], remainder := [], sum := 0, sum_of_squares := 0 }
  else
    none

/-- The fallible `heapless::Deque<i32, 10>::push_back`: appends when the
deque holds fewer than its inline capacity of 10 elements, and returns
`none` (the `Err` branch, deque unchanged) when it is full. -/
def dequePushBack (vs : List Int) (v : Int) : Option (List Int) :=
  if vs.length < 10 then some (vs ++ [v]) else none

/-- Method `RollingStats::add_sample`.  If the window is at `window_size`,
the oldest element is popped and subtracted from both running scalars; then
the new value is pushed (the push result is discarded, as in the Rust
`let _ =`) and added to both scalars.  All `i64` updates wrap. -/
def RollingStats.add_sample (s : RollingStats) (value : Int) : RollingStats :=
  let s1 :=
    if s.values.length = s.window_size then
      match s.values with
      | [] => s
      | removed :: rest =>
        { s with values := rest,
                 sum := wrap64 (s.sum - removed),
                 sum_of_squares := wrap64 (s.sum_of_squares - wrap64 (removed ^ 2)) }
    else s
  { s1 with values := (dequePushBack s1.values value).getD s1.values,
            sum := wrap64 (s1.sum + value),
            sum_of_squares := wrap64 (s1.sum_of_squares + wrap64 (value ^ 2)) }

/-- Method `RollingStats::read_i32_from_bytes`.  The Rust body slices
`&bytes[0..4]`, which panics (`none`) when fewer than 4 bytes are present
and otherwise reads exactly the first four bytes, ignoring any excess. -/
def RollingStats.read_i32_from_bytes (s : RollingStats) (bytes : List Nat) :
    Option Int :=
  match bytes with
  | b0 :: b1 :: b2 :: b3 :: _ => some (decode4 s.endianness b0 b1 b2 b3)
  | _ => none

/-- The `for chunk in buf[start..].chunks(4)` loop of `write`: each full
4-byte chunk is decoded (as `read_i32_from_bytes` does on a 4-byte slice)
and inserted; a final short chunk is appended to the carry buffer.  The
`bytes_consumed` accumulator threads through. -/
def RollingStats.writeChunks (s : RollingStats) (buf : List Nat)
    (bytes_consumed : Nat) : RollingStats × Nat :=
  match buf with
  | [] => (s, bytes_consumed)
  | b0 :: b1 :: b2 :: b3 :: rest =>
    let value := decode4 s.endianness b0 b1 b2 b3
    (s.add_sample value).writeChunks rest (bytes_consumed + 4)
  | chunk => ({ s with remainder := s.remainder ++ chunk },
              bytes_consumed + chunk.length)

/-- Method `RollingStats::write`.  If a carry is pending, first complete it
from the head of `buf` (or, when `buf` is too short, extend the carry and
return early); then run the 4-byte-chunk loop over the rest of `buf`. -/
def RollingStats.write (s : RollingStats) (buf : List Nat) :
    RollingStats × Nat :=
  if s.remainder.isEmpty then
    s.writeChunks buf 0
  else
    let start := 4 - s.remainder.length
    if start ≤ buf.length then
      let s1 : RollingStats := { s with remainder := s.remainder ++ buf.take start }
      match s1.read_i32_from_bytes s1.remainder with
      | some value =>
        let s2 := s1.add_sample value
        ({ s2 with remainder := [] }).writeChunks (buf.drop start) start
      | none => (s1, 0)
    else
      ({ s with remainder := s.remainder ++ buf }, buf.length)

/-- Method `RollingStats::mean`, with `f32` modelled as exact `ℚ`. -/
def RollingStats.mean (s : RollingStats) : ℚ :=
  let count := s.values.length
  if count = 0 then 0
  else (s.sum : ℚ) / (count : ℚ)

/-- Method `RollingStats::std_dev`, with `f32` modelled as exact arithmetic:
the naive population variance `sum_of_squares / n - mean ^ 2` followed by a
real square root. -/
noncomputable def RollingStats.std_dev (s : RollingStats) : ℝ :=
  let count := s.values.length
  if count < 2 then 0
  else
    let mean := s.mean
    let variance : ℚ := (s.sum_of_squares : ℚ) / (count : ℚ) - mean * mean
    Real.sqrt (variance : ℝ)

open Classical in
/-- Method `RollingStats::sample`.  The external Gaussian capability
(`Normal::new(mean, std_dev)` plus `thread_rng`) is the oracle `draw`; the
code shortcuts to `mean` when `std_dev == 0.0` without drawing. -/
noncomputable def RollingStats.sample (s : RollingStats) (draw : ℝ → ℝ → ℝ) : ℝ :=
  let mean := s.mean
  let std_dev := s.std_dev
  if std_dev = 0 then (mean : ℝ)
  else draw (mean : ℝ) std_dev

/-- A write operation on a `RollingStats`: a direct sample insertion or a
byte-stream ingestion. -/
inductive Op where
  | insert (v : Int)
  | ingest (buf : List Nat)

/-- Apply one operation to the state. -/
def RollingStats.applyOp (s : RollingStats) : Op → RollingStats
  | .insert v => s.add_sample v
  | .ingest buf => (s.write buf).1

/-- Run a sequence of operations from a state. -/
def RollingStats.run (s : RollingStats) (ops : List Op) : RollingStats :=
  ops.foldl RollingStats.applyOp s

/-- Feed a list of byte chunks through successive `write` calls, returning
the final state and the total number of bytes consumed. -/
def RollingStats.writeMany (s : RollingStats) :
    List (List Nat) → RollingStats × Nat
  | [] => (s, 0)
  | c :: cs =>
    let r := s.write c
    let rest := r.1.writeMany cs
    (rest.1, r.2 + rest.2)

/-- Core state invariant: both running scalars are the wrapped 64-bit sums
over the window, the window length is bounded by the configured size, and
the configured size is in the constructor-admitted range `1..=10`. -/
def InvCore (s : RollingStats) : Prop :=
  s.sum = wrap64 s.values.sum
  ∧ s.sum_of_squares = wrap64 (s.values.map (fun v => v ^ 2)).sum
  ∧ s.values.length ≤ s.window_size
  ∧ 0 < s.window_size
  ∧ s.window_size ≤ 10

/-- Full state invariant: the core invariant plus the carry-buffer bound. -/
def StatsInv (s : RollingStats) : Prop :=
  InvCore s ∧ s.remainder.length ≤ 3

instance : DecidablePred InvCore := fun s => by
  unfold InvCore; infer_instance

instance : DecidablePred StatsInv := fun s => by
  unfold StatsInv; infer_instance

/-! ### Arithmetic facts about 64-bit wrapping -/

theorem emod_add_left_cancel (x b n : ℤ) : (x % n + b) % n = (x + b) % n :=
  Int.emod_add_emod x n b

theorem emod_sub_left_cancel (x b n : ℤ) : (x % n - b) % n = (x - b) % n := by
  rw [Int.sub_emod, Int.emod_emod_of_dvd x dvd_rfl, ← Int.sub_emod]

theorem emod_sub_right_cancel (x b n : ℤ) : (x - b % n) % n = (x - b) % n := by
  rw [Int.sub_emod, Int.emod_emod_of_dvd b dvd_rfl, ← Int.sub_emod]

theorem wrap64_add_left (a b : ℤ) : wrap64 (wrap64 a + b) = wrap64 (a + b) := by
  unfold wrap64
  have h : (a + 2 ^ 63) % 2 ^ 64 - 2 ^ 63 + b + 2 ^ 63 = (a + 2 ^ 63) % 2 ^ 64 + b := by
    ring
  rw [h, emod_add_left_cancel]
  ring_nf

theorem wrap64_sub_left (a b : ℤ) : wrap64 (wrap64 a - b) = wrap64 (a - b) := by
  unfold wrap64
  have h : (a + 2 ^ 63) % 2 ^ 64 - 2 ^ 63 - b + 2 ^ 63 = (a + 2 ^ 63) % 2 ^ 64 - b := by
    ring
  rw [h, emod_sub_left_cancel]
  ring_nf

theorem wrap64_add_right (a b : ℤ) : wrap64 (a + wrap64 b) = wrap64 (a + b) := by
  rw [add_comm a (wrap64 b), wrap64_add_left, add_comm]

theorem wrap64_sub_right (a b : ℤ) : wrap64 (a - wrap64 b) = wrap64 (a - b) := by
  unfold wrap64
  have h : a - ((b + 2 ^ 63) % 2 ^ 64 - 2 ^ 63) + 2 ^ 63
      = a + 2 ^ 64 - (b + 2 ^ 63) % 2 ^ 64 := by ring
  rw [h, emod_sub_right_cancel]
  have h2 : a + 2 ^ 64 - (b + 2 ^ 63) = a - b + 2 ^ 63 := by ring
  rw [h2]

/-! ### Structural facts about `add_sample` -/

theorem add_sample_remainder (s : RollingStats) (v : Int) :
    (s.add_sample v).remainder = s.remainder := by
  obtain ⟨ws, e, vals, rm, sm, ssq⟩ := s
  unfold RollingStats.add_sample
  dsimp only
  split
  · cases vals <;> rfl
  · rfl

theorem add_sample_window_size (s : RollingStats) (v : Int) :
    (s.add_sample v).window_size = s.window_size := by
  obtain ⟨ws, e, vals, rm, sm, ssq⟩ := s
  unfold RollingStats.add_sample
  dsimp only
  split
  · cases vals <;> rfl
  · rfl

theorem add_sample_endianness (s : RollingStats) (v : Int) :
    (s.add_sample v).endianness = s.endianness := by
  obtain ⟨ws, e, vals, rm, sm, ssq⟩ := s
  unfold RollingStats.add_sample
  dsimp only
  split
  · cases vals <;> rfl
  · rfl

theorem add_sample_set_remainder (s : RollingStats) (v : Int) (rm : List Nat) :
    RollingStats.add_sample { s with remainder := rm } v
      = { s.add_sample v with remainder := rm } := by
  obtain ⟨ws, e, vals, rm0, sm, ssq⟩ := s
  unfold RollingStats.add_sample
  dsimp only
  split
  · cases vals <;> rfl
  · rfl

/-- The not-at-capacity branch of `add_sample`: no eviction, the value is
appended. -/
theorem add_sample_not_full (s : RollingStats) (v : Int)
    (h : s.values.length ≠ s.window_size) (h10 : s.values.length < 10) :
    s.add_sample v
      = { s with values := s.values ++ [v],
                 sum := wrap64 (s.sum + v),
                 sum_of_squares := wrap64 (s.sum_of_squares + wrap64 (v ^ 2)) } := by
  unfold RollingStats.add_sample dequePushBack
  rw [if_neg h]
  dsimp only
  rw [if_pos h10]
  rfl

/-- The at-capacity branch of `add_sample`: the head is evicted first, then
the value is appended. -/
theorem add_sample_full (s : RollingStats) (v r : Int) (rest : List Int)
    (hv : s.values = r :: rest) (h : s.values.length = s.window_size)
    (h10 : rest.length < 10) :
    s.add_sample v
      = { s with values := rest ++ [v],
                 sum := wrap64 (wrap64 (s.sum - r) + v),
                 sum_of_squares :=
                   wrap64 (wrap64 (s.sum_of_squares - wrap64 (r ^ 2)) + wrap64 (v ^ 2)) } := by
  unfold RollingStats.add_sample dequePushBack
  rw [if_pos h, hv]
  dsimp only
  rw [if_pos h10]
  rfl

/-- `add_sample` preserves the core invariant. -/
theorem invCore_add_sample (s : RollingStats) (v : Int) (h : InvCore s) :
    InvCore (s.add_sample v) := by
  obtain ⟨hs, hsq, hlen, h0, h10⟩ := h
  by_cases hfull : s.values.length = s.window_size
  · have hne : s.values ≠ [] := by
      intro hnil
      rw [hnil] at hfull
      simp at hfull
      omega
    obtain ⟨r, rest, hv⟩ : ∃ r rest, s.values = r :: rest := by
      cases hval : s.values with
      | nil => exact absurd hval hne
      | cons a l => exact ⟨a, l, rfl⟩
    have hrest : rest.length < 10 := by
      have : s.values.length = rest.length + 1 := by rw [hv]; simp
      omega
    rw [add_sample_full s v r rest hv hfull hrest]
    refine ⟨?_, ?_, ?_, h0, h10⟩
    · show wrap64 (wrap64 (s.sum - r) + v) = wrap64 (rest ++ [v]).sum
      rw [hs, wrap64_sub_left, wrap64_add_left]
      have : s.values.sum - r + v = (rest ++ [v]).sum := by
        rw [hv]; simp; try ring
      rw [this]
    · show wrap64 (wrap64 (s.sum_of_squares - wrap64 (r ^ 2)) + wrap64 (v ^ 2))
        = wrap64 ((rest ++ [v]).map (fun t => t ^ 2)).sum
      rw [hsq, wrap64_sub_left, wrap64_sub_right, wrap64_add_left, wrap64_add_right]
      have : (s.values.map (fun t => t ^ 2)).sum - r ^ 2 + v ^ 2
          = ((rest ++ [v]).map (fun t => t ^ 2)).sum := by
        rw [hv]; simp; try ring
      rw [this]
    · show (rest ++ [v]).length ≤ s.window_size
      have : s.values.length = rest.length + 1 := by rw [hv]; simp
      simp
      omega
  · have hlt : s.values.length < 10 := by omega
    rw [add_sample_not_full s v hfull hlt]
    refine ⟨?_, ?_, ?_, h0, h10⟩
    · show wrap64 (s.sum + v) = wrap64 (s.values ++ [v]).sum
      rw [hs, wrap64_add_left]
      simp
    · show wrap64 (s.sum_of_squares + wrap64 (v ^ 2))
        = wrap64 ((s.values ++ [v]).map (fun t => t ^ 2)).sum
      rw [hsq, wrap64_add_right, wrap64_add_left]
      simp
    · show (s.values ++ [v]).length ≤ s.window_size
      simp
      omega

/-! ### Facts about the chunk-processing loop -/

theorem writeChunks_snd (s : RollingStats) (buf : List Nat) (c : Nat) :
    (s.writeChunks buf c).2 = c + buf.length := by
  match buf with
  | [] => rfl
  | [b0] => rfl
  | [b0, b1] => rfl
  | [b0, b1, b2] => rfl
  | b0 :: b1 :: b2 :: b3 :: rest =>
    show ((s.add_sample (decode4 s.endianness b0 b1 b2 b3)).writeChunks rest (c + 4)).2 = _
    rw [writeChunks_snd]
    simp
    omega

theorem writeChunks_fst_c (s : RollingStats) (buf : List Nat) (c c' : Nat) :
    (s.writeChunks buf c).1 = (s.writeChunks buf c').1 := by
  match buf with
  | [] => rfl
  | [b0] => rfl
  | [b0, b1] => rfl
  | [b0, b1, b2] => rfl
  | b0 :: b1 :: b2 :: b3 :: rest =>
    show ((s.add_sample (decode4 s.endianness b0 b1 b2 b3)).writeChunks rest (c + 4)).1 = _
    rw [writeChunks_fst_c _ rest (c + 4) (c' + 4)]
    rfl

theorem writeChunks_remainder (s : RollingStats) (buf : List Nat) (c : Nat)
    (h : s.remainder = []) :
    ((s.writeChunks buf c).1).remainder.length = buf.length % 4 := by
  match buf with
  | [] => show s.remainder.length = 0; rw [h]; rfl
  | [b0] => show (s.remainder ++ [b0]).length = 1; rw [h]; rfl
  | [b0, b1] => show (s.remainder ++ [b0, b1]).length = 2; rw [h]; rfl
  | [b0, b1, b2] => show (s.remainder ++ [b0, b1, b2]).length = 3; rw [h]; rfl
  | b0 :: b1 :: b2 :: b3 :: rest =>
    show (((s.add_sample (decode4 s.endianness b0 b1 b2 b3)).writeChunks rest (c + 4)).1).remainder.length = _
    rw [writeChunks_remainder _ rest (c + 4) ((add_sample_remainder s _).trans h)]
    simp [Nat.add_mod_right]
    omega

theorem writeChunks_window_size (s : RollingStats) (buf : List Nat) (c : Nat) :
    ((s.writeChunks buf c).1).window_size = s.window_size := by
  match buf with
  | [] => rfl
  | [b0] => rfl
  | [b0, b1] => rfl
  | [b0, b1, b2] => rfl
  | b0 :: b1 :: b2 :: b3 :: rest =>
    show (((s.add_sample (decode4 s.endianness b0 b1 b2 b3)).writeChunks rest (c + 4)).1).window_size = _
    rw [writeChunks_window_size _ rest (c + 4), add_sample_window_size]

/-- The chunk loop preserves the core invariant. -/
theorem invCore_writeChunks (s : RollingStats) (buf : List Nat) (c : Nat)
    (h : InvCore s) : InvCore ((s.writeChunks buf c).1) := by
  match buf with
  | [] => exact h
  | [b0] => exact h
  | [b0, b1] => exact h
  | [b0, b1, b2] => exact h
  | b0 :: b1 :: b2 :: b3 :: rest =>
    show InvCore (((s.add_sample (decode4 s.endianness b0 b1 b2 b3)).writeChunks rest (c + 4)).1)
    exact invCore_writeChunks _ rest (c + 4) (invCore_add_sample s _ h)

/-! ### Facts about `write` -/

theorem set_remainder_self (s : RollingStats) (h : s.remainder = []) :
    ({ s with remainder := [] } : RollingStats) = s := by
  obtain ⟨ws, e, vals, rm, sm, ssq⟩ := s
  subst h
  rfl

theorem exists_four (l : List Nat) (h : 4 ≤ l.length) :
    ∃ b0 b1 b2 b3 tl, l = b0 :: b1 :: b2 :: b3 :: tl := by
  rcases l with _ | ⟨b0, _ | ⟨b1, _ | ⟨b2, _ | ⟨b3, tl⟩⟩⟩⟩
  · simp at h
  · simp at h
  · simp at h
  · simp at h
  · exact ⟨b0, b1, b2, b3, tl, rfl⟩

theorem remainder_isEmpty_false (s : RollingStats) (h : s.remainder ≠ []) :
    s.remainder.isEmpty = false := by
  cases hrem : s.remainder with
  | nil => exact absurd hrem h
  | cons a l => rfl

/-- The completed carry always holds at least 4 bytes, so the
`read_i32_from_bytes` call inside `write` cannot hit the short-slice panic. -/
theorem carry_extended_length (s : RollingStats) (buf : List Nat)
    (h1 : s.remainder ≠ []) (h2 : 4 - s.remainder.length ≤ buf.length) :
    4 ≤ (s.remainder ++ buf.take (4 - s.remainder.length)).length := by
  have hpos : 1 ≤ s.remainder.length := by
    cases hrem : s.remainder with
    | nil => exact absurd hrem h1
    | cons a l => simp
  have htake : (buf.take (4 - s.remainder.length)).length = 4 - s.remainder.length := by
    simp
    omega
  simp [htake]
  omega

theorem write_consumed (s : RollingStats) (buf : List Nat) :
    (s.write buf).2 = buf.length := by
  by_cases hre : s.remainder = []
  · unfold RollingStats.write
    rw [if_pos]
    · rw [writeChunks_snd]
      omega
    · rw [hre]
      rfl
  · unfold RollingStats.write
    rw [if_neg (by simp [remainder_isEmpty_false s hre])]
    dsimp only
    by_cases hbuf : 4 - s.remainder.length ≤ buf.length
    · rw [if_pos hbuf]
      obtain ⟨b0, b1, b2, b3, tl, heq⟩ :=
        exists_four _ (carry_extended_length s buf hre hbuf)
      rw [heq]
      show ((RollingStats.writeChunks _ (buf.drop (4 - s.remainder.length))
              (4 - s.remainder.length)).2) = buf.length
      rw [writeChunks_snd]
      simp
      omega
    · rw [if_neg hbuf]

theorem add_sample_clear_remainder (s : RollingStats) (v : Int) (rm : List Nat) :
    ({ RollingStats.add_sample { s with remainder := rm } v
        with remainder := ([] : List Nat) } : RollingStats)
      = { s.add_sample v with remainder := ([] : List Nat) } := by
  rw [add_sample_set_remainder]

/-- Normal form of `write`: with a legal carry (at most 3 bytes), the final
state is exactly what the chunk loop produces on `remainder ++ buf` from the
carry-cleared state. -/
theorem write_spec (s : RollingStats) (buf : List Nat)
    (h : s.remainder.length ≤ 3) :
    (s.write buf).1
      = (({ s with remainder := [] }).writeChunks (s.remainder ++ buf) 0).1 := by
  by_cases hre : s.remainder = []
  · unfold RollingStats.write
    rw [if_pos (by rw [hre]; rfl), hre, set_remainder_self s hre]
    rfl
  · unfold RollingStats.write
    rw [if_neg (by simp [remainder_isEmpty_false s hre])]
    dsimp only
    by_cases hbuf : 4 - s.remainder.length ≤ buf.length
    · rw [if_pos hbuf]
      obtain ⟨b0, b1, b2, b3, tl, heq⟩ :=
        exists_four _ (carry_extended_length s buf hre hbuf)
      have hpos : 1 ≤ s.remainder.length := List.length_pos.mpr hre
      have htake : (buf.take (4 - s.remainder.length)).length
          = 4 - s.remainder.length := by
        simp
        omega
      have hlen4 : (s.remainder ++ buf.take (4 - s.remainder.length)).length = 4 := by
        simp [htake]
        omega
      have htl : tl = [] := by
        rw [heq] at hlen4
        simp at hlen4
        exact hlen4
      subst htl
      have hsplit : s.remainder ++ buf
          = b0 :: b1 :: b2 :: b3 :: buf.drop (4 - s.remainder.length) := by
        conv_lhs => rw [← List.take_append_drop (4 - s.remainder.length) buf]
        rw [← List.append_assoc, heq]
        rfl
      rw [heq]
      show (({ RollingStats.add_sample { s with remainder := [b0, b1, b2, b3] }
                (decode4 s.endianness b0 b1 b2 b3) with remainder := ([] : List Nat) }).writeChunks
             (buf.drop (4 - s.remainder.length)) (4 - s.remainder.length)).1
          = (({ s with remainder := ([] : List Nat) }).writeChunks (s.remainder ++ buf) 0).1
      have hL : ({ RollingStats.add_sample { s with remainder := [b0, b1, b2, b3] }
              (decode4 s.endianness b0 b1 b2 b3) with remainder := ([] : List Nat) } : RollingStats)
          = { s.add_sample (decode4 s.endianness b0 b1 b2 b3)
              with remainder := ([] : List Nat) } :=
        add_sample_clear_remainder s _ _
      rw [hL, hsplit]
      show _ = ((({ s with remainder := ([] : List Nat) }).add_sample
            (decode4 s.endianness b0 b1 b2 b3)).writeChunks
            (buf.drop (4 - s.remainder.length)) (0 + 4)).1
      have hR : RollingStats.add_sample { s with remainder := ([] : List Nat) }
            (decode4 s.endianness b0 b1 b2 b3)
          = { s.add_sample (decode4 s.endianness b0 b1 b2 b3)
              with remainder := ([] : List Nat) } :=
        add_sample_set_remainder s _ _
      rw [hR]
      exact writeChunks_fst_c _ _ _ _
    · rw [if_neg hbuf]
      have hlen : 1 ≤ (s.remainder ++ buf).length ∧ (s.remainder ++ buf).length ≤ 3 := by
        have hpos : 1 ≤ s.remainder.length := List.length_pos.mpr hre
        simp
        omega
      obtain ⟨hge, hle⟩ := hlen
      rcases hl : s.remainder ++ buf with _ | ⟨x0, _ | ⟨x1, _ | ⟨x2, _ | ⟨x3, tl⟩⟩⟩⟩
      · rw [hl] at hge
        simp at hge
      · rfl
      · rfl
      · rfl
      · rw [hl] at hle
        simp at hle

theorem write_remainder_length (s : RollingStats) (buf : List Nat)
    (h : s.remainder.length ≤ 3) :
    ((s.write buf).1).remainder.length = (s.remainder.length + buf.length) % 4 := by
  rw [write_spec s buf h, writeChunks_remainder _ _ _ rfl]
  simp

theorem write_remainder_le (s : RollingStats) (buf : List Nat)
    (h : s.remainder.length ≤ 3) :
    ((s.write buf).1).remainder.length ≤ 3 := by
  have := write_remainder_length s buf h
  omega

theorem write_window_size (s : RollingStats) (buf : List Nat)
    (h : s.remainder.length ≤ 3) :
    ((s.write buf).1).window_size = s.window_size := by
  rw [write_spec s buf h, writeChunks_window_size]

/-- Chunk-loop runs compose across a cut: finishing a first batch, then
feeding its leftover followed by more bytes, is one longer run. -/
theorem writeChunks_glue (t : RollingStats) (xs ys : List Nat)
    (ht : t.remainder = []) :
    ((({ (t.writeChunks xs 0).1 with remainder := [] }).writeChunks
        (((t.writeChunks xs 0).1).remainder ++ ys) 0).1)
      = (t.writeChunks (xs ++ ys) 0).1 := by
  match xs with
  | [] =>
    show ((({ t with remainder := [] }).writeChunks (t.remainder ++ ys) 0).1)
        = (t.writeChunks ys 0).1
    rw [set_remainder_self t ht, ht]
    rfl
  | [c0] =>
    obtain ⟨ws, e, vals, rm, sm, ssq⟩ := t
    cases ht
    rfl
  | [c0, c1] =>
    obtain ⟨ws, e, vals, rm, sm, ssq⟩ := t
    cases ht
    rfl
  | [c0, c1, c2] =>
    obtain ⟨ws, e, vals, rm, sm, ssq⟩ := t
    cases ht
    rfl
  | b0 :: b1 :: b2 :: b3 :: rest =>
    have ht' : (t.add_sample (decode4 t.endianness b0 b1 b2 b3)).remainder = [] :=
      (add_sample_remainder t _).trans ht
    show ((({ ((t.add_sample (decode4 t.endianness b0 b1 b2 b3)).writeChunks rest (0 + 4)).1
              with remainder := [] }).writeChunks
            ((((t.add_sample (decode4 t.endianness b0 b1 b2 b3)).writeChunks rest (0 + 4)).1).remainder
              ++ ys) 0).1)
        = (((t.add_sample (decode4 t.endianness b0 b1 b2 b3)).writeChunks (rest ++ ys) (0 + 4)).1)
    rw [writeChunks_fst_c (t.add_sample (decode4 t.endianness b0 b1 b2 b3)) rest (0 + 4) 0,
        writeChunks_fst_c (t.add_sample (decode4 t.endianness b0 b1 b2 b3)) (rest ++ ys) (0 + 4) 0]
    exact writeChunks_glue (t.add_sample (decode4 t.endianness b0 b1 b2 b3)) rest ys ht'

/-- Two successive `write` calls are one `write` of the concatenation. -/
theorem write_write (s : RollingStats) (a b : List Nat)
    (h : s.remainder.length ≤ 3) :
    ((s.write a).1.write b).1 = (s.write (a ++ b)).1 := by
  have h1 : ((s.write a).1).remainder.length ≤ 3 := write_remainder_le s a h
  rw [write_spec _ b h1, write_spec s a h, write_spec s (a ++ b) h]
  have hglue := writeChunks_glue ({ s with remainder := [] }) (s.remainder ++ a) b rfl
  rw [hglue, List.append_assoc]

/-- `write` preserves the full invariant. -/
theorem statsInv_write (s : RollingStats) (buf : List Nat) (h : StatsInv s) :
    StatsInv ((s.write buf).1) := by
  obtain ⟨hc, hr⟩ := h
  constructor
  · rw [write_spec s buf hr]
    exact invCore_writeChunks _ _ _ hc
  · have := write_remainder_length s buf hr
    omega

theorem statsInv_applyOp (s : RollingStats) (op : Op) (h : StatsInv s) :
    StatsInv (s.applyOp op) ∧ (s.applyOp op).window_size = s.window_size := by
  cases op with
  | insert v =>
    refine ⟨⟨invCore_add_sample s v h.1, ?_⟩, add_sample_window_size s v⟩
    show (s.add_sample v).remainder.length ≤ 3
    rw [add_sample_remainder]
    exact h.2
  | ingest buf =>
    exact ⟨statsInv_write s buf h, write_window_size s buf h.2⟩

theorem statsInv_run (s : RollingStats) (ops : List Op) (h : StatsInv s) :
    StatsInv (s.run ops) ∧ (s.run ops).window_size = s.window_size := by
  induction ops generalizing s with
  | nil => exact ⟨h, rfl⟩
  | cons op ops ih =>
    have h1 := statsInv_applyOp s op h
    have h2 := ih (s.applyOp op) h1.1
    exact ⟨h2.1, h2.2.trans h1.2⟩

/-- Eliminate a successful construction. -/
theorem new_elim (cap : Nat) (e : Endianness) (s0 : RollingStats)
    (h : RollingStats.new cap e = some s0) :
    s0 = { window_size := cap, endianness := e, values := [], remainder := [],
           sum := 0, sum_of_squares := 0 }
    ∧ 0 < cap ∧ cap ≤ 10 := by
  unfold RollingStats.new at h
  split at h
  · rename_i hcond
    injection h with h
    exact ⟨h.symm, hcond.1, hcond.2⟩
  · exact absurd h (by simp)

theorem statsInv_new (cap : Nat) (e : Endianness) (s0 : RollingStats)
    (h : RollingStats.new cap e = some s0) : StatsInv s0 := by
  obtain ⟨hs0, h0, h10⟩ := new_elim cap e s0 h
  subst hs0
  refine ⟨⟨rfl, rfl, ?_, h0, h10⟩, ?_⟩ <;> simp

/-! ### FIFO shape of the window -/

/-- One `add_sample` in drop normal form: appending the value and dropping
the head exactly when the window was at capacity. -/
theorem add_sample_values (s : RollingStats) (v : Int)
    (hlen : s.values.length ≤ s.window_size) (h0 : 0 < s.window_size)
    (h10 : s.window_size ≤ 10) :
    (s.add_sample v).values
      = (s.values ++ [v]).drop (s.values.length + 1 - s.window_size) := by
  by_cases hfull : s.values.length = s.window_size
  · obtain ⟨r, rest, hv⟩ : ∃ r rest, s.values = r :: rest := by
      cases hval : s.values with
      | nil =>
        rw [hval] at hfull
        simp at hfull
        omega
      | cons a l => exact ⟨a, l, rfl⟩
    have hrest : rest.length < 10 := by
      have : s.values.length = rest.length + 1 := by rw [hv]; simp
      omega
    rw [add_sample_full s v r rest hv hfull hrest]
    show rest ++ [v] = _
    rw [hfull]
    have h1 : s.window_size + 1 - s.window_size = 1 := by omega
    rw [h1, hv]
    rfl
  · rw [add_sample_not_full s v hfull (by omega)]
    show s.values ++ [v] = _
    have h1 : s.values.length + 1 - s.window_size = 0 := by omega
    rw [h1, List.drop_zero]

/-- A whole burst of insertions in drop normal form: the window is the last
`window_size` elements (at most) of the old window followed by the burst. -/
theorem foldl_add_sample_values (xs : List Int) (s : RollingStats)
    (h : InvCore s) :
    (xs.foldl RollingStats.add_sample s).values
      = (s.values ++ xs).drop (s.values.length + xs.length - s.window_size) := by
  induction xs generalizing s with
  | nil =>
    have hlen := h.2.2.1
    have hz : s.values.length + (0 : Nat) - s.window_size = 0 := by omega
    simp only [List.foldl_nil, List.append_nil, List.length_nil, hz, List.drop_zero]
  | cons v xs ih =>
    show ((xs.foldl RollingStats.add_sample (s.add_sample v)).values) = _
    rw [ih (s.add_sample v) (invCore_add_sample s v h)]
    rw [add_sample_values s v h.2.2.1 h.2.2.2.1 h.2.2.2.2]
    rw [add_sample_window_size]
    rw [← List.drop_append_of_le_length (by simp)]
    rw [List.drop_drop]
    rw [List.append_assoc]
    congr 1
    · simp
      have := h.2.2.1
      omega

theorem write_nil (s : RollingStats) (h : s.remainder.length ≤ 3) :
    (s.write []).1 = s := by
  by_cases hre : s.remainder = []
  · unfold RollingStats.write
    rw [if_pos (by rw [hre]; rfl)]
    rfl
  · unfold RollingStats.write
    rw [if_neg (by simp [remainder_isEmpty_false s hre])]
    dsimp only
    rw [if_neg (by
      have : 1 ≤ s.remainder.length := List.length_pos.mpr hre
      simp
      omega)]
    show ({ s with remainder := s.remainder ++ [] } : RollingStats) = s
    rw [List.append_nil]

theorem invCore_foldl (xs : List Int) (s : RollingStats) (h : InvCore s) :
    InvCore (xs.foldl RollingStats.add_sample s) := by
  induction xs generalizing s with
  | nil => exact h
  | cons v xs ih => exact ih (s.add_sample v) (invCore_add_sample s v h)

theorem foldl_window_size (xs : List Int) (s : RollingStats) :
    (xs.foldl RollingStats.add_sample s).window_size = s.window_size := by
  induction xs generalizing s with
  | nil => rfl
  | cons v xs ih => exact (ih (s.add_sample v)).trans (add_sample_window_size s v)

/-- Inside `add_sample`, the deque push that the code silently discards can
never fail: after the conditional eviction the deque holds fewer than 10
elements, so `push_back` succeeds and the new sample is always appended. -/
theorem add_sample_no_drop (t : RollingStats) (v : Int)
    (hlen : t.values.length ≤ t.window_size) (h0 : 0 < t.window_size)
    (h10 : t.window_size ≤ 10) :
    dequePushBack (if t.values.length = t.window_size then t.values.tail
                   else t.values) v
      = some ((if t.values.length = t.window_size then t.values.tail
               else t.values) ++ [v])
    ∧ (t.add_sample v).values
      = (if t.values.length = t.window_size then t.values.tail
         else t.values) ++ [v] := by
  by_cases hfull : t.values.length = t.window_size
  · simp only [if_pos hfull]
    obtain ⟨r, rest, hv⟩ : ∃ r rest, t.values = r :: rest := by
      cases hval : t.values with
      | nil =>
        rw [hval] at hfull
        simp at hfull
        omega
      | cons a l => exact ⟨a, l, rfl⟩
    have hrest : rest.length < 10 := by
      have : t.values.length = rest.length + 1 := by rw [hv]; simp
      omega
    constructor
    · unfold dequePushBack
      rw [if_pos (by rw [List.length_tail]; omega)]
    · rw [add_sample_full t v r rest hv hfull hrest, hv]
      rfl
  · simp only [if_neg hfull]
    constructor
    · unfold dequePushBack
      rw [if_pos (by omega)]
    · rw [add_sample_not_full t v hfull (by omega)]

/-! ### Concrete states and inputs used to instantiate the theorems -/

/-- The default configuration: capacity 3, big-endian, freshly constructed. -/
def st3Big : RollingStats :=
  { window_size := 3, endianness := .Big, values := [], remainder := [],
    sum := 0, sum_of_squares := 0 }

/-- A capacity-3 big-endian instance holding the single sample 5. -/
def st5 : RollingStats :=
  { window_size := 3, endianness := .Big, values := [5], remainder := [],
    sum := 5, sum_of_squares := 25 }

/-- A demonstration operation sequence mixing insertions and fragmented
ingestion. -/
def demoOps : List Op :=
  [.ingest [0, 0, 0, 1, 0], .insert 7, .ingest [0, 0, 2], .insert 9]

/-- A demonstration fragmentation of 12 bytes into three chunks. -/
def chunksW : List (List Nat) :=
  [[0, 0, 0, 1, 0, 0], [0, 2, 0], [0, 0, 3]]

/-- A deterministic stand-in for the Gaussian draw oracle. -/
def drawK : ℝ → ℝ → ℝ := fun m sd => m + sd + 100

/-! ### The claims -/

/-- C1: starting from a freshly constructed instance, after every sequence of
`InsertSample` (`add_sample`) and `Ingest` (`write`) operations, `running_sum`
(`sum`) is exactly the 64-bit sum of the window, `running_sum_sq`
(`sum_of_squares`) is exactly the 64-bit sum of its squares,
`len(window) ≤ capacity`, and the carry holds at most 3 bytes. -/
theorem c1_representation_invariant (cap : Nat) (e : Endianness)
    (s0 : RollingStats) (ops : List Op)
    (h : RollingStats.new cap e = some s0) :
    (s0.run ops).sum = wrap64 ((s0.run ops).values.sum)
    ∧ (s0.run ops).sum_of_squares
        = wrap64 (((s0.run ops).values.map (fun v => v ^ 2)).sum)
    ∧ (s0.run ops).values.length ≤ cap
    ∧ (s0.run ops).remainder.length ≤ 3 := by
  have hinv := statsInv_run s0 ops (statsInv_new cap e s0 h)
  obtain ⟨⟨hsum, hsq, hlen, _, _⟩, hrem⟩ := hinv.1
  have hws := hinv.2
  have hcap : s0.window_size = cap := by
    obtain ⟨hs0, _, _⟩ := new_elim cap e s0 h
    rw [hs0]
  refine ⟨hsum, hsq, ?_, hrem⟩
  rw [← hcap, ← hws]
  exact hlen

theorem c1_representation_invariant_witness :
    RollingStats.new 3 .Big = some st3Big
    ∧ ((st3Big.run demoOps).sum = wrap64 ((st3Big.run demoOps).values.sum)
      ∧ (st3Big.run demoOps).sum_of_squares
          = wrap64 (((st3Big.run demoOps).values.map (fun v => v ^ 2)).sum)
      ∧ (st3Big.run demoOps).values.length ≤ 3
      ∧ (st3Big.run demoOps).remainder.length ≤ 3) :=
  ⟨rfl, c1_representation_invariant 3 .Big st3Big demoOps rfl⟩

/-- C2: for every byte sequence and every way of splitting it into
consecutive chunks, feeding the chunks through successive `write` calls
yields exactly the same final state as one `write` of the whole sequence,
and the total bytes consumed equals the sequence length. -/
theorem c2_fragmented_ingestion (s : RollingStats) (chunks : List (List Nat))
    (h : s.remainder.length ≤ 3) :
    (s.writeMany chunks).1 = (s.write chunks.flatten).1
    ∧ (s.writeMany chunks).2 = chunks.flatten.length := by
  induction chunks generalizing s with
  | nil =>
    constructor
    · show s = (s.write [].flatten).1
      rw [List.flatten_nil, write_nil s h]
    · rfl
  | cons c cs ih =>
    have h1 : ((s.write c).1).remainder.length ≤ 3 := write_remainder_le s c h
    constructor
    · show ((s.write c).1.writeMany cs).1 = _
      rw [(ih (s.write c).1 h1).1, write_write s c cs.flatten h, List.flatten_cons]
    · show (s.write c).2 + ((s.write c).1.writeMany cs).2 = _
      rw [(ih (s.write c).1 h1).2, write_consumed, List.flatten_cons]
      simp

theorem c2_fragmented_ingestion_witness :
    (st3Big.writeMany chunksW).1 = (st3Big.write chunksW.flatten).1
    ∧ (st3Big.writeMany chunksW).2 = chunksW.flatten.length :=
  c2_fragmented_ingestion st3Big chunksW (by decide)

/-- C3: `write` always reports the whole input as consumed, and when the
carry starts empty it afterwards holds exactly `len(buf) mod 4` bytes (so
every byte is either decoded into a frame or kept in the carry). -/
theorem c3_consumes_everything (s : RollingStats) (buf : List Nat) :
    (s.write buf).2 = buf.length
    ∧ (s.remainder = [] →
        ((s.write buf).1).remainder.length = buf.length % 4) := by
  refine ⟨write_consumed s buf, fun hre => ?_⟩
  have h3 : s.remainder.length ≤ 3 := by rw [hre]; simp
  rw [write_remainder_length s buf h3, hre]
  simp

theorem c3_consumes_everything_witness :
    (st3Big.write [0, 0, 0, 1, 9, 9]).2 = 6
    ∧ ((st3Big.write [0, 0, 0, 1, 9, 9]).1).remainder.length = 2 :=
  ⟨(c3_consumes_everything st3Big [0, 0, 0, 1, 9, 9]).1,
   (c3_consumes_everything st3Big [0, 0, 0, 1, 9, 9]).2 rfl⟩

/-- C4: strict FIFO eviction: after more than `capacity` insertions the
window holds exactly the most recent `capacity` values in insertion order,
and one further insertion at capacity removes the oldest element before
appending the new one (never overwriting in place). -/
theorem c4_fifo_eviction (cap : Nat) (e : Endianness) (s0 : RollingStats)
    (xs : List Int) (h : RollingStats.new cap e = some s0)
    (hmore : cap < xs.length) :
    (xs.foldl RollingStats.add_sample s0).values = xs.drop (xs.length - cap)
    ∧ ∀ v, ((xs.foldl RollingStats.add_sample s0).add_sample v).values
        = ((xs.foldl RollingStats.add_sample s0).values).tail ++ [v] := by
  obtain ⟨hs0, h0, h10⟩ := new_elim cap e s0 h
  have hcore : InvCore s0 := by
    subst hs0
    exact ⟨rfl, rfl, by simp, h0, h10⟩
  have hvals := foldl_add_sample_values xs s0 hcore
  have hnil : s0.values = [] := by rw [hs0]
  have hws : s0.window_size = cap := by rw [hs0]
  rw [hnil, hws, List.nil_append] at hvals
  simp only [List.length_nil, Nat.zero_add] at hvals
  refine ⟨hvals, fun v => ?_⟩
  set t := xs.foldl RollingStats.add_sample s0 with ht
  have htcore : InvCore t := invCore_foldl xs s0 hcore
  have htws : t.window_size = cap := by rw [ht, foldl_window_size, hws]
  have htlen : t.values.length = cap := by
    rw [hvals]
    simp
    omega
  have hfull : t.values.length = t.window_size := by rw [htlen, htws]
  have hnd := add_sample_no_drop t v htcore.2.2.1 htcore.2.2.2.1 htcore.2.2.2.2
  rw [hnd.2, if_pos hfull]

theorem c4_fifo_eviction_witness :
    (([1, 2, 3, 4] : List Int).foldl RollingStats.add_sample st3Big).values
        = ([1, 2, 3, 4] : List Int).drop (4 - 3)
    ∧ ((([1, 2, 3, 4] : List Int).foldl RollingStats.add_sample st3Big).add_sample 9).values
        = ((([1, 2, 3, 4] : List Int).foldl RollingStats.add_sample st3Big).values).tail ++ [9] :=
  ⟨(c4_fifo_eviction 3 .Big st3Big [1, 2, 3, 4] rfl (by decide)).1,
   (c4_fifo_eviction 3 .Big st3Big [1, 2, 3, 4] rfl (by decide)).2 9⟩

/-- C5: `mean` returns exactly 0 for an empty window and otherwise
`running_sum / len(window)` (with `f32` modelled as exact `ℚ`). -/
theorem c5_mean (s : RollingStats) :
    s.mean = if s.values.length = 0 then (0 : ℚ)
             else (s.sum : ℚ) / (s.values.length : ℚ) := rfl

/-- C6: `std_dev` returns exactly 0 for fewer than two samples and otherwise
the square root of the naive population variance
`running_sum_sq / n - mean ^ 2` (with `f32` modelled as exact arithmetic). -/
theorem c6_std_dev (s : RollingStats) :
    s.std_dev = if s.values.length < 2 then (0 : ℝ)
      else Real.sqrt (((s.sum_of_squares : ℚ) / (s.values.length : ℚ)
            - s.mean * s.mean : ℚ) : ℝ) := rfl

/-- C7: whenever `std_dev` is exactly 0 — in particular for windows with
fewer than two elements — `sample` returns exactly `mean`, independently of
the Gaussian draw oracle (which is not invoked). -/
theorem c7_sample_degenerate (s : RollingStats) (draw : ℝ → ℝ → ℝ) :
    (s.std_dev = 0 → s.sample draw = (s.mean : ℝ))
    ∧ (s.values.length < 2 → s.std_dev = 0) := by
  constructor
  · intro h
    unfold RollingStats.sample
    rw [if_pos h]
  · intro h
    unfold RollingStats.std_dev
    rw [if_pos h]

theorem c7_sample_degenerate_witness :
    st5.sample drawK = (st5.mean : ℝ) ∧ st5.std_dev = 0 ∧ st5.mean = 5 :=
  have h0 : st5.std_dev = 0 := (c7_sample_degenerate st5 drawK).2 (by decide)
  ⟨(c7_sample_degenerate st5 drawK).1 h0, h0, by norm_num [RollingStats.mean, st5]⟩

/-- C8: construction with capacity 0 fails (panic, no instance); every
accepted construction yields an instance with the requested configuration,
empty window, empty carry, and zero running sums. -/
theorem c8_construction (cap : Nat) (e : Endianness) (s : RollingStats) :
    RollingStats.new 0 e = none
    ∧ (RollingStats.new cap e = some s →
        s.window_size = cap ∧ s.endianness = e ∧ s.values = []
        ∧ s.remainder = [] ∧ s.sum = 0 ∧ s.sum_of_squares = 0) := by
  constructor
  · unfold RollingStats.new
    rw [if_neg (by simp)]
  · intro h
    obtain ⟨hs0, _, _⟩ := new_elim cap e s h
    subst hs0
    exact ⟨rfl, rfl, rfl, rfl, rfl, rfl⟩

theorem c8_construction_witness :
    RollingStats.new 0 .Big = none
    ∧ (st3Big.window_size = 3 ∧ st3Big.endianness = .Big ∧ st3Big.values = []
        ∧ st3Big.remainder = [] ∧ st3Big.sum = 0 ∧ st3Big.sum_of_squares = 0) :=
  ⟨(c8_construction 3 .Big st3Big).1, (c8_construction 3 .Big st3Big).2 rfl⟩

/-- C9 counterexample: a 5-byte slice is not rejected by
`read_i32_from_bytes`; it is silently truncated to its first four bytes
(here decoding to 1 and ignoring the trailing 99). -/
theorem c9_counterexample :
    ([0, 0, 0, 1, 99] : List Nat).length ≠ 4
    ∧ st3Big.read_i32_from_bytes [0, 0, 0, 1, 99] = some 1
    ∧ st3Big.read_i32_from_bytes [0, 0, 0, 1, 99]
        = st3Big.read_i32_from_bytes [0, 0, 0, 1] := by
  refine ⟨by decide, by decide, rfl⟩

/-- C9 (amended): `read_i32_from_bytes` is pure and total on exactly-4-byte
slices, decoding per the configured endianness; a shorter slice hits the
slice-index panic; a longer slice is silently truncated to its first four
bytes rather than rejected. -/
theorem c9_decode_frame (s : RollingStats) (b0 b1 b2 b3 : Nat)
    (rest bytes : List Nat) :
    s.read_i32_from_bytes (b0 :: b1 :: b2 :: b3 :: rest)
        = some (decode4 s.endianness b0 b1 b2 b3)
    ∧ (bytes.length < 4 → s.read_i32_from_bytes bytes = none) := by
  refine ⟨rfl, fun h => ?_⟩
  rcases bytes with _ | ⟨a, _ | ⟨b, _ | ⟨c, _ | ⟨d, tl⟩⟩⟩⟩
  · rfl
  · rfl
  · rfl
  · rfl
  · simp at h
    omega

theorem c9_decode_frame_witness :
    st3Big.read_i32_from_bytes [0, 0, 0, 2, 7]
        = some (decode4 st3Big.endianness 0 0 0 2)
    ∧ st3Big.read_i32_from_bytes [1, 2] = none :=
  ⟨(c9_decode_frame st3Big 0 0 0 2 [7] [1, 2]).1,
   (c9_decode_frame st3Big 0 0 0 2 [7] [1, 2]).2 (by decide)⟩

/-- C10: the constructor admits only capacities 1 through 10, and on every
reachable state the (discarded-result) deque push inside `add_sample` takes
its success branch: after the at-capacity eviction there is always free
space, so the new sample is always appended and never silently dropped. -/
theorem c10_push_back_infallible (cap : Nat) (e : Endianness)
    (s0 : RollingStats) (ops : List Op) (v : Int)
    (h : RollingStats.new cap e = some s0) :
    (1 ≤ cap ∧ cap ≤ 10)
    ∧ dequePushBack
        (if (s0.run ops).values.length = (s0.run ops).window_size
         then ((s0.run ops).values).tail else (s0.run ops).values) v
      = some ((if (s0.run ops).values.length = (s0.run ops).window_size
               then ((s0.run ops).values).tail else (s0.run ops).values) ++ [v])
    ∧ ((s0.run ops).add_sample v).values
      = (if (s0.run ops).values.length = (s0.run ops).window_size
         then ((s0.run ops).values).tail else (s0.run ops).values) ++ [v] := by
  obtain ⟨hs0, h0, h10⟩ := new_elim cap e s0 h
  have hinv := statsInv_run s0 ops (statsInv_new cap e s0 h)
  obtain ⟨⟨_, _, hlen, hws0, hws10⟩, _⟩ := hinv.1
  have hnd := add_sample_no_drop (s0.run ops) v hlen hws0 hws10
  exact ⟨⟨h0, h10⟩, hnd.1, hnd.2⟩

theorem c10_push_back_infallible_witness :
    (1 ≤ 3 ∧ 3 ≤ 10)
    ∧ dequePushBack
        (if (st3Big.run demoOps).values.length = (st3Big.run demoOps).window_size
         then ((st3Big.run demoOps).values).tail else (st3Big.run demoOps).values) 42
      = some ((if (st3Big.run demoOps).values.length = (st3Big.run demoOps).window_size
               then ((st3Big.run demoOps).values).tail else (st3Big.run demoOps).values) ++ [42])
    ∧ ((st3Big.run demoOps).add_sample 42).values
      = (if (st3Big.run demoOps).values.length = (st3Big.run demoOps).window_size
         then ((st3Big.run demoOps).values).tail else (st3Big.run demoOps).values) ++ [42] :=
  c10_push_back_infallible 3 .Big st3Big demoOps 42 rfl
